import Mathlib

/-!
# Verification of the MEK electron-transfer kinetics engine

Shallow embedding of the kinetics engine in `MEK_vib.py` (class `Network`):
mixed-radix state indexing, allowed-state enumeration, the Marcus vibronic
rate law `ET`, the Coulomb-corrected free-energy difference
`deltaG_coulomb_calculation`, rate-matrix assembly
(`connectStateRate` / `connectReservoirRate` / `constructRateMatrix`),
the matrix-exponential propagator `evolve`, and the Gillespie sampler
`gillespie_ssa`.

Exact field arithmetic of the source (occupancies, potentials, distances,
energies) is embedded over `ℚ`/`ℕ` so that it stays executable; quantities
built from `exp`, `sqrt` and `π` (rates, matrix entries) live in `ℝ`.
-/

namespace MEK

/-! ## State indexing (`MEK_vib.py`, `state2idx` lines 186-200, `idx2state` lines 202-216)

`state2idx` accumulates `idx += state[i] * N; N *= siteCapacity[i] + 1` over the
cofactors, i.e. a mixed-radix (Horner) encoding with radix `capacity+1` per site.
`idx2state` repeatedly takes `divmod(idx, capacity+1)`. -/

def state2idx : List ℕ → List ℕ → ℕ
  | c :: cs, s :: ss => s + (c + 1) * state2idx cs ss
  | _, _ => 0

def idx2state : List ℕ → ℕ → List ℕ
  | [], _ => []
  | c :: cs, idx => idx % (c + 1) :: idx2state cs (idx / (c + 1))

/-- `num_state` after all `addCofactor` calls (line 110): product of `capacity+1`. -/
def numState (cap : List ℕ) : ℕ := (cap.map (· + 1)).prod

/-- `constructStateList` (lines 218-232): default `max_electrons` is the total
capacity, default `min_electrons` is 0; keep the raw indices whose occupancy
sum is within the bounds.  The source reports no error when the result is
empty; it just stores the empty list (and `adj_num_state = 0`). -/
def constructStateList (cap : List ℕ) (minE maxE : Option ℤ) : List ℕ :=
  let maxEv : ℤ := maxE.getD (cap.sum : ℤ)
  let minEv : ℤ := minE.getD 0
  (List.range (numState cap)).filter
    (fun i => decide ((((idx2state cap i).sum : ℤ) ≤ maxEv) ∧ (minEv ≤ ((idx2state cap i).sum : ℤ))))

theorem idx2state_length (cap : List ℕ) : ∀ i, (idx2state cap i).length = cap.length := by
  induction cap with
  | nil => intro i; rfl
  | cons c cs ih => intro i; simp [idx2state, ih]

theorem numState_cons (c : ℕ) (cs : List ℕ) : numState (c :: cs) = (c + 1) * numState cs := by
  simp [numState]

theorem state2idx_of_idx2state (cap : List ℕ) : ∀ i, i < numState cap →
    state2idx cap (idx2state cap i) = i := by
  induction cap with
  | nil =>
      intro i hi
      simp [numState] at hi
      simp [idx2state, state2idx, hi]
  | cons c cs ih =>
      intro i hi
      have hc : 0 < c + 1 := Nat.succ_pos c
      have hdiv : i / (c + 1) < numState cs := by
        rw [numState_cons] at hi
        exact Nat.div_lt_of_lt_mul hi
      simp only [idx2state, state2idx]
      rw [ih _ hdiv]
      exact Nat.mod_add_div i (c + 1)

theorem idx2state_of_state2idx : ∀ (cap s : List ℕ), List.Forall₂ (· ≤ ·) s cap →
    idx2state cap (state2idx cap s) = s := by
  intro cap s h
  induction h with
  | nil => rfl
  | @cons a b as bs hab _ ih =>
      simp only [state2idx, idx2state]
      rw [Nat.add_mul_mod_self_left, Nat.mod_eq_of_lt (Nat.lt_succ_of_le hab),
        Nat.add_mul_div_left _ _ (Nat.succ_pos b),
        Nat.div_eq_of_lt (Nat.lt_succ_of_le hab), Nat.zero_add, ih]

/-- C5: for every capacity configuration, decoding a raw index `i < num_state` and
re-encoding gives back `i`, and encoding a valid occupation vector (entrywise
bounded by the capacities) and decoding gives back the vector: the mixed-radix
`state2idx`/`idx2state` round-trip is exact for all valid indices. -/
theorem state_index_roundtrip :
    (∀ (cap : List ℕ) (i : ℕ), i < numState cap → state2idx cap (idx2state cap i) = i) ∧
    (∀ (cap s : List ℕ), List.Forall₂ (· ≤ ·) s cap →
      idx2state cap (state2idx cap s) = s) :=
  ⟨state2idx_of_idx2state, idx2state_of_state2idx⟩

/-- Witness for C5 at capacities `[1, 2]`: index 4 decodes to `[0, 2]` and encodes
back to 4, and the valid state `[1, 1]` encodes to an index that decodes back to it. -/
theorem state_index_roundtrip_witness :
    state2idx [1, 2] (idx2state [1, 2] 4) = 4 ∧
    idx2state [1, 2] (state2idx [1, 2] [1, 1]) = [1, 1] :=
  ⟨state_index_roundtrip.1 [1, 2] 4 (by decide),
   state_index_roundtrip.2 [1, 2] [1, 1] (by decide)⟩

/-- C7 evaluation: with one capacity-1 cofactor and caller-set electron bounds
`min = max = 2`, `constructStateList` returns the empty allowed list (so
`adj_num_state = 0`) and signals nothing: the source has no error path, so the
build sequence silently continues with a zero-size state list. -/
theorem constructStateList_empty_silent :
    constructStateList [1] (some 2) (some 2) = [] ∧
    (constructStateList [1] (some 2) (some 2)).length = 0 := by
  constructor <;> decide

/-! ## Marcus vibronic rate law (`ET`, lines 273-296)

The loop `for n in range(quanta + 1): k_total += k_n` is embedded as a finite
sum; each term is written exactly as the source computes `k_n`. -/

/-- `self.hbar`, set once in `__init__` (line 66): `6.5821e-16` eV.s. -/
noncomputable def hbarPlanck : ℝ := 6.5821 * 10 ^ (-16 : ℤ)

/-- `ET(self, deltaG, R, reorgE, beta, V, vibfreq=0.15, quanta=100, D=0.5)`:
nonadiabatic Marcus rate with a vibronic progression.  `hbar` stands for
`self.hbar`. -/
noncomputable def ET (hbar deltaG R reorgE beta V vibfreq : ℝ) (quanta : ℕ) (D : ℝ) : ℝ :=
  ∑ n ∈ Finset.range (quanta + 1),
    (2 * Real.pi / hbar) * (V * Real.exp (-0.6 * R)) ^ 2
      * (1 / Real.sqrt (4 * Real.pi * (1 / beta) * reorgE))
      * Real.exp (-beta * (deltaG + (n : ℝ) * vibfreq + reorgE) ^ 2 / (4 * reorgE))
      * (Real.exp (-D) * D ^ n / (Nat.factorial n : ℝ))

/-- The fixed distance-decay coefficient: the source hard-codes `exp(-0.6 * R)`. -/
noncomputable def gammaDecay : ℝ := 0.6

/-- C1: `ET` returns exactly the finite sum over `n = 0..quanta` of
`exp(-D) * D^n / n!` times `(2*pi/hbar) * (V*exp(-gamma*R))^2` times
`1/sqrt(4*pi*reorgE/beta)` times `exp(-beta*(deltaG + n*vibfreq + reorgE)^2 / (4*reorgE))`,
with `gamma = 0.6` the fixed decay coefficient and `hbar` the stored Planck
constant, for positive `reorgE` and `beta`. -/
theorem ET_matches_spec_formula (deltaG R reorgE beta V vibfreq D : ℝ) (quanta : ℕ)
    (hreorg : 0 < reorgE) (hbeta : 0 < beta) :
    ET hbarPlanck deltaG R reorgE beta V vibfreq quanta D =
      ∑ n ∈ Finset.range (quanta + 1),
        (Real.exp (-D) * D ^ n / (Nat.factorial n : ℝ))
          * ((2 * Real.pi / hbarPlanck) * (V * Real.exp (-gammaDecay * R)) ^ 2
            * (1 / Real.sqrt (4 * Real.pi * reorgE / beta))
            * Real.exp (-beta * (deltaG + (n : ℝ) * vibfreq + reorgE) ^ 2 / (4 * reorgE))) := by
  unfold ET gammaDecay
  refine Finset.sum_congr rfl (fun n _ => ?_)
  have h4 : 4 * Real.pi * (1 / beta) * reorgE = 4 * Real.pi * reorgE / beta := by
    ring
  rw [h4]
  ring

/-- Witness for C1 at `deltaG = 0, R = 1, reorgE = 1, beta = 1, V = 1, vibfreq = 1,
quanta = 1, D = 1`; the positivity hypotheses hold at 1. -/
theorem ET_matches_spec_formula_witness :
    (0 : ℝ) < 1 ∧
    ET hbarPlanck 0 1 1 1 1 1 1 1 =
      ∑ n ∈ Finset.range 2,
        (Real.exp (-1) * 1 ^ n / (Nat.factorial n : ℝ))
          * ((2 * Real.pi / hbarPlanck) * (1 * Real.exp (-gammaDecay * 1)) ^ 2
            * (1 / Real.sqrt (4 * Real.pi * 1 / 1))
            * Real.exp (-1 * (0 + (n : ℝ) * 1 + 1) ^ 2 / (4 * 1))) :=
  ⟨by norm_num, ET_matches_spec_formula 0 1 1 1 1 1 1 1 (by norm_num) (by norm_num)⟩

/-! ## Coulomb-corrected free-energy difference
(`deltaG_coulomb_calculation`, lines 355-412)

The active code computes, for each of the two states,
`energy_state -= occ * redox[occ - 1]` over the cofactors (Python indexing,
so `occ = 0` reads `redox[-1]`, the last ladder entry, harmlessly multiplied
by zero) and a double loop of pairwise Coulomb terms
`14.39 / eps_r / D[a][b] * occ_a * occ_b` over ordered distinct pairs with both
occupancies positive, and returns
`energy_state_j + sum_eps_j - energy_state_i - sum_eps_i`. -/

/-- Python list indexing `l[k]` with possibly negative `k` (totalized with
default 0 out of range; the source only uses it in range or multiplied by 0). -/
def pyIdx (l : List ℚ) (k : ℤ) : ℚ :=
  if 0 ≤ k then l.getD k.toNat 0 else l.getD (l.length - (-k).toNat) 0

/-- The `energy_state` accumulation of `deltaG_coulomb_calculation`
(lines 380-385): `energy -= occ * id2cofactor[index].redox[occ - 1]`. -/
def energyState (cofs : List (List ℚ)) (s : List ℕ) : ℚ :=
  -∑ k ∈ Finset.range s.length,
    (s.getD k 0 : ℚ) * pyIdx (cofs.getD k []) ((s.getD k 0 : ℤ) - 1)

/-- The `sum_eps` double loop of `deltaG_coulomb_calculation` (lines 387-398):
ordered distinct pairs with both occupancies positive contribute
`14.39 / eps_r / D[a][b] * occ_a * occ_b`. -/
def coulombSum (Dm : ℕ → ℕ → ℚ) (epsr : ℚ) (s : List ℕ) : ℚ :=
  ∑ a ∈ Finset.range s.length, ∑ b ∈ Finset.range s.length,
    if a ≠ b ∧ 0 < s.getD a 0 ∧ 0 < s.getD b 0 then
      14.39 / epsr / Dm a b * (s.getD a 0 : ℚ) * (s.getD b 0 : ℚ)
    else 0

/-- `deltaG_coulomb_calculation(self, state_i, state_j, cof_i, cof_f, red_i, red_f)`
(lines 355-412).  The result depends only on the two states and the network
fields (`id2cofactor` ladders, distance matrix `D`, `eps_r`); the cofactor/redox
arguments are dead in the active code, so they are not parameters here. -/
def deltaG_coulomb_calculation (cofs : List (List ℚ)) (Dm : ℕ → ℕ → ℚ) (epsr : ℚ)
    (state_i state_j : List ℕ) : ℚ :=
  energyState cofs state_j + coulombSum Dm epsr state_j
    - energyState cofs state_i - coulombSum Dm epsr state_i

/-- Potential of a cofactor ladder at occupancy level `occ` (the `occ`-th redox
potential, i.e. entry `occ - 1` of the ladder); only used at `occ ≥ 1`. -/
def potentialAtLevel (ladder : List ℚ) (occ : ℕ) : ℚ := ladder.getD (occ - 1) 0

/-- Free energy of a microstate, following the specification text (section 4.3):
`G(s) = -Σ_cofactor occupancy * potential-at-that-occupancy-level
+ Σ_(ordered distinct pairs, both occupancies nonzero) (14.39 / eps_r / distance) * occ_a * occ_b`. -/
def freeEnergySpec (cofs : List (List ℚ)) (Dm : ℕ → ℕ → ℚ) (epsr : ℚ) (s : List ℕ) : ℚ :=
  (-∑ k ∈ Finset.range s.length,
      (s.getD k 0 : ℚ) * potentialAtLevel (cofs.getD k []) (s.getD k 0))
    + ∑ a ∈ Finset.range s.length, ∑ b ∈ Finset.range s.length,
        if a ≠ b ∧ 0 < s.getD a 0 ∧ 0 < s.getD b 0 then
          14.39 / epsr / Dm a b * (s.getD a 0 : ℚ) * (s.getD b 0 : ℚ)
        else 0

theorem energyState_eq_spec (cofs : List (List ℚ)) (s : List ℕ) :
    energyState cofs s =
      -∑ k ∈ Finset.range s.length,
        (s.getD k 0 : ℚ) * potentialAtLevel (cofs.getD k []) (s.getD k 0) := by
  unfold energyState
  congr 1
  refine Finset.sum_congr rfl (fun k _ => ?_)
  rcases Nat.eq_zero_or_pos (s.getD k 0) with h0 | hpos
  · rw [h0]
    norm_num
  · obtain ⟨m, hm⟩ := Nat.exists_eq_add_of_le hpos
    have hsub : s.getD k 0 - 1 = m := by omega
    have hcast : ((s.getD k 0 : ℤ) - 1) = (m : ℤ) := by omega
    rw [hcast]
    simp only [pyIdx, potentialAtLevel, hsub]
    rw [if_pos (Int.natCast_nonneg m)]
    simp

/-- C2: `deltaG_coulomb_calculation` on two microstates returns
`G(state_j) - G(state_i)` for the free-energy model `G` of the spec
(occupancy-weighted potentials plus pairwise Coulomb terms over the full dense
distance matrix), under the stated preconditions that the states have one entry
per cofactor and that every ordered pair of distinct cofactors simultaneously
occupied in either state has a nonzero recorded distance (so no division by
zero occurs). -/
theorem deltaG_coulomb_eq_free_energy_difference (cofs : List (List ℚ))
    (Dm : ℕ → ℕ → ℚ) (epsr : ℚ) (state_i state_j : List ℕ)
    (hleni : state_i.length = cofs.length) (hlenj : state_j.length = cofs.length)
    (hD : ∀ a : ℕ, a < cofs.length → ∀ b : ℕ, b < cofs.length → a ≠ b →
      ((0 < state_i.getD a 0 ∧ 0 < state_i.getD b 0) ∨
        (0 < state_j.getD a 0 ∧ 0 < state_j.getD b 0)) → Dm a b ≠ 0) :
    deltaG_coulomb_calculation cofs Dm epsr state_i state_j =
      freeEnergySpec cofs Dm epsr state_j - freeEnergySpec cofs Dm epsr state_i := by
  unfold deltaG_coulomb_calculation freeEnergySpec
  rw [energyState_eq_spec cofs state_i, energyState_eq_spec cofs state_j]
  unfold coulombSum
  ring

/-- Witness for C2: two capacity-1 cofactors with ladders `[1], [2]`, distance 5
between them, `eps_r = 8`, states `[1, 0]` and `[0, 1]`; all preconditions hold
and the returned value is the spec free-energy difference. -/
theorem deltaG_coulomb_witness :
    deltaG_coulomb_calculation [[1], [2]] (fun a b => if a ≠ b then 5 else 0) 8 [1, 0] [0, 1] =
      freeEnergySpec [[1], [2]] (fun a b => if a ≠ b then 5 else 0) 8 [0, 1]
        - freeEnergySpec [[1], [2]] (fun a b => if a ≠ b then 5 else 0) 8 [1, 0] :=
  deltaG_coulomb_eq_free_energy_difference [[1], [2]] (fun a b => if a ≠ b then 5 else 0) 8
    [1, 0] [0, 1] (by decide) (by decide)
    (by decide)

/-! ## The network (`Network.__init__` / `addCofactor` / `addConnection` /
`addReservoir` / `set_Max_Electrons` / `set_Min_Electrons`)

A `Network` value records the configuration after registration calls:
the redox ladders in id order (`id2cofactor`, so `siteCapacity` is the list of
ladder lengths), the adjacency list, the reservoir registry, the optional
electron bounds and the ET parameters stored on the object. -/

structure Reservoir where
  cof : ℕ
  redox : ℕ
  num : ℕ
  dG : ℚ
  rate : ℚ
deriving DecidableEq

structure Network where
  cofactors : List (List ℚ)
  adjacencyList : List (ℕ × ℕ × ℚ)
  reservoirs : List Reservoir
  maxElectrons : Option ℤ
  minElectrons : Option ℤ
  beta : ℚ
  V : ℚ
  eps_r : ℚ
deriving DecidableEq

/-- `self.siteCapacity`: `addCofactor` appends `cofactor.capacity = len(redox)`. -/
def siteCapacity (net : Network) : List ℕ := net.cofactors.map List.length

def numCofactor (net : Network) : ℕ := net.cofactors.length

/-- `constructAdjacencyMatrix` (lines 240-247): zero matrix, then
`D[id1][id2] = D[id2][id1] = distance` for each adjacency-list entry. -/
def Dmat (net : Network) : ℕ → ℕ → ℚ :=
  net.adjacencyList.foldl
    (fun D e => fun p q =>
      if (p = e.1 ∧ q = e.2.1) ∨ (p = e.2.1 ∧ q = e.1) then e.2.2 else D p q)
    (fun _ _ => 0)

/-- The `self.allow` list produced by `constructStateList`. -/
def allowedList (net : Network) : List ℕ :=
  constructStateList (siteCapacity net) net.minElectrons net.maxElectrons

/-- `self.adj_num_state` (line 230). -/
def adjNumState (net : Network) : ℕ := (allowedList net).length

/-- `idx2state(self.allow[i])`: the microstate for compressed index `i`. -/
def stateOfA (net : Network) (allow : List ℕ) (i : ℕ) : List ℕ :=
  idx2state (siteCapacity net) (allow.getD i 0)

/-! ## Rate-matrix assembly (`connectStateRate` lines 298-354,
`connectReservoirRate` lines 415-463, `constructRateMatrix` lines 542-576)

Both connect functions scan all ordered pairs `(i, j)` of compressed states
with two nested loops; on a match they perform the four additive updates
`K[j][i] += kf; K[i][i] -= kf; K[i][j] += kb; K[j][j] -= kb` with
`kb = kf * exp(beta * deltaG)`.  The scans are embedded as a fold of the
four-cell update over the list of matched contributions, in loop order. -/

/-- The ordered pairs `(i, j)` visited by the two nested
`for i in range(adj_num_state): for j in range(adj_num_state):` loops. -/
def pairList (m : ℕ) : List (ℕ × ℕ) :=
  (List.range m).flatMap (fun i => (List.range m).map (fun j => (i, j)))

/-- `np.delete(state, idxs)`: drop the entries at positions `idxs`. -/
def npDelete (s : List ℕ) (idxs : List ℕ) : List ℕ :=
  ((List.range s.length).filter (fun k => decide (k ∉ idxs))).map (fun k => s.getD k 0)

/-- The match condition of `connectStateRate` (lines 312, 323, 339): state `i`
has the donor at `red_i` and acceptor at `red_f`, state `j` has the donor at
`red_i - num_electrons` and acceptor at `red_f + num_electrons`, and all other
cofactor occupancies agree. -/
def stateMatchB (net : Network) (allow : List ℕ) (cofi redi coff redf num : ℕ)
    (i j : ℕ) : Bool :=
  let si := stateOfA net allow i
  let sj := stateOfA net allow j
  (si.getD cofi 0 == redi) && (si.getD coff 0 == redf) &&
  ((sj.getD cofi 0 : ℤ) == (redi : ℤ) - (num : ℤ)) &&
  ((sj.getD coff 0 : ℤ) == (redf : ℤ) + (num : ℤ)) &&
  (npDelete si [cofi, coff] == npDelete sj [cofi, coff])

/-- The match condition of `connectReservoirRate` (lines 431, 440, 452): the
bound cofactor sits at `red_i` in state `i` and at `red_f` in state `j`, and all
other occupancies agree (`red_f = redox_state - num_electron` may be negative,
hence the integer comparison). -/
def reservoirMatchB (net : Network) (allow : List ℕ) (cofId : ℕ) (redi redf : ℤ)
    (i j : ℕ) : Bool :=
  let si := stateOfA net allow i
  let sj := stateOfA net allow j
  ((si.getD cofId 0 : ℤ) == redi) && ((sj.getD cofId 0 : ℤ) == redf) &&
  (npDelete si [cofId] == npDelete sj [cofId])

/-- One matched contribution of the assembly: a cofactor-to-cofactor transfer
found by `connectStateRate` (with its distance and the Coulomb `deltaG` computed
at the matched pair, line 343) or a reservoir transfer found by
`connectReservoirRate` (with the caller-supplied rate and `deltaG`). -/
inductive Contrib where
  | et (i j : ℕ) (dis dG : ℚ)
  | res (i j : ℕ) (rate dG : ℚ)
deriving DecidableEq

def Contrib.srcIdx : Contrib → ℕ
  | .et i _ _ _ => i
  | .res i _ _ _ => i

def Contrib.dstIdx : Contrib → ℕ
  | .et _ j _ _ => j
  | .res _ j _ _ => j

def Contrib.deltaG : Contrib → ℚ
  | .et _ _ _ dG => dG
  | .res _ _ _ dG => dG

/-- Forward rate of a contribution: `k = self.ET(deltaG, dis, reorgE, self.beta,
self.V)` with the default `vibfreq=0.15, quanta=100, D=0.5` (line 344) for
cofactor transfers, and the reservoir`s stored rate (line 454) otherwise. -/
noncomputable def Contrib.kf (net : Network) (reorgE : ℚ) : Contrib → ℝ
  | .et _ _ dis dG =>
      ET hbarPlanck (dG : ℝ) (dis : ℝ) (reorgE : ℝ) (net.beta : ℝ) (net.V : ℝ) 0.15 100 0.5
  | .res _ _ rate _ => (rate : ℝ)

/-- Backward rate: `kb = k * np.exp(self.beta * deltaG)` (lines 346 and 455). -/
noncomputable def Contrib.kb (net : Network) (reorgE : ℚ) (c : Contrib) : ℝ :=
  c.kf net reorgE * Real.exp ((net.beta : ℝ) * (c.deltaG : ℝ))

/-- The four in-place updates performed for one matched pair (lines 348-354 and
457-463): `K[j][i] += kf; K[i][i] -= kf; K[i][j] += kb; K[j][j] -= kb`. -/
noncomputable def applyPairUpdate (kf kb : ℝ) (i j : ℕ) (K : ℕ → ℕ → ℝ) : ℕ → ℕ → ℝ :=
  fun p q =>
    K p q + ((if p = j ∧ q = i then kf else 0) - (if p = i ∧ q = i then kf else 0)
      + (if p = i ∧ q = j then kb else 0) - (if p = j ∧ q = j then kb else 0))

/-- Apply a list of matched contributions to `K`, in order. -/
noncomputable def applyContribs (net : Network) (reorgE : ℚ) (l : List Contrib)
    (K : ℕ → ℕ → ℝ) : ℕ → ℕ → ℝ :=
  l.foldl (fun K c => applyPairUpdate (c.kf net reorgE) (c.kb net reorgE) c.srcIdx c.dstIdx K) K

/-- The contributions found by one `connectStateRate(cof_i, red_i, cof_f, red_f,
dis, reorgE, num_electrons)` call: scan `pairList`, keep matches, record the
distance and the Coulomb `deltaG` of the matched state pair. -/
def stateRateContribs (net : Network) (allow : List ℕ)
    (cofi redi coff redf num : ℕ) (dis : ℚ) : List Contrib :=
  (pairList allow.length).filterMap (fun p =>
    if stateMatchB net allow cofi redi coff redf num p.1 p.2 then
      some (Contrib.et p.1 p.2 dis
        (deltaG_coulomb_calculation net.cofactors (Dmat net) net.eps_r
          (stateOfA net allow p.1) (stateOfA net allow p.2)))
    else none)

/-- The `connectStateRate` calls issued by `constructRateMatrix` (lines 549-569):
for each cofactor pair `i < j` with `D[i][j] != 0`, each donor level
`1..capacity_i` and each acceptor level `0..capacity_j - 1`, the call
`(cof_i, donor, cof_f, acceptor)` with `num_electrons = 1`. -/
def etCalls (net : Network) : List (ℕ × ℕ × ℕ × ℕ) :=
  (List.range (numCofactor net)).flatMap (fun i =>
    (List.range (numCofactor net)).flatMap (fun j =>
      if i < j ∧ Dmat net i j ≠ 0 then
        (List.range ((siteCapacity net).getD i 0)).flatMap (fun d =>
          (List.range ((siteCapacity net).getD j 0)).map (fun a => (i, d + 1, j, a)))
      else []))

/-- All cofactor-to-cofactor contributions of `constructRateMatrix`. -/
def etContribs (net : Network) (allow : List ℕ) : List Contrib :=
  (etCalls net).flatMap (fun c =>
    stateRateContribs net allow c.1 c.2.1 c.2.2.1 c.2.2.2 1 (Dmat net c.1 c.2.2.1))

/-- The contributions found by one `connectReservoirRate(cof_id, redox_state,
redox_state - num_electron, rate, deltaG)` call (lines 570-576 with 428-463). -/
def reservoirContribs (net : Network) (allow : List ℕ) (r : Reservoir) : List Contrib :=
  (pairList allow.length).filterMap (fun p =>
    if reservoirMatchB net allow r.cof (r.redox : ℤ) ((r.redox : ℤ) - (r.num : ℤ)) p.1 p.2 then
      some (Contrib.res p.1 p.2 r.rate r.dG)
    else none)

/-- All contributions of one `constructRateMatrix` run, in execution order:
the cofactor-pair phase, then one block per registered reservoir. -/
def allContribs (net : Network) (allow : List ℕ) : List Contrib :=
  etContribs net allow ++ net.reservoirs.flatMap (reservoirContribs net allow)

/-! ## The stateful build (`constructRateMatrix`, lines 542-576)

`constructRateMatrix` resets `self.K` to zeros, runs the cofactor-pair phase,
then calls `connectReservoirRate` once per reservoir.  `connectReservoirRate`
additionally overwrites `self.max_electrons = sum(self.siteCapacity)`
unconditionally (line 427; the `if self.max_electrons == None` guard is
commented out).  The mutable state is the configuration plus the stored
`allow` list and the rate matrix `K`. -/

structure NetworkState where
  conf : Network
  allow : List ℕ
  K : ℕ → ℕ → ℝ

/-- `connectReservoirRate` as a state transformer: sets
`self.max_electrons = sum(self.siteCapacity)` and accumulates the matched
reservoir contributions into `K`. -/
noncomputable def connectReservoirRate_state (reorgE : ℚ) (st : NetworkState)
    (r : Reservoir) : NetworkState :=
  { conf := { st.conf with maxElectrons := some ((siteCapacity st.conf).sum : ℤ) },
    allow := st.allow,
    K := applyContribs st.conf reorgE (reservoirContribs st.conf st.allow r) st.K }

/-- `constructRateMatrix(self, reorgE=0.2)`: reset `K` to zeros, apply the
cofactor-pair phase, then fold `connectReservoirRate` over the reservoirs. -/
noncomputable def constructRateMatrix_state (st : NetworkState) (reorgE : ℚ) : NetworkState :=
  st.conf.reservoirs.foldl (connectReservoirRate_state reorgE)
    { st with K := applyContribs st.conf reorgE (etContribs st.conf st.allow) (fun _ _ => 0) }

/-- The rate matrix after a full `constructStateList`; `constructAdjacencyMatrix`;
`constructRateMatrix(reorgE)` build sequence. -/
noncomputable def builtK (net : Network) (reorgE : ℚ) : ℕ → ℕ → ℝ :=
  (constructRateMatrix_state ⟨net, allowedList net, fun _ _ => 0⟩ reorgE).K

/-! ## Structural lemmas about the assembly -/

theorem applyContribs_nil (net : Network) (reorgE : ℚ) (K : ℕ → ℕ → ℝ) :
    applyContribs net reorgE [] K = K := rfl

theorem applyContribs_cons (net : Network) (reorgE : ℚ) (c : Contrib) (l : List Contrib)
    (K : ℕ → ℕ → ℝ) :
    applyContribs net reorgE (c :: l) K =
      applyContribs net reorgE l
        (applyPairUpdate (c.kf net reorgE) (c.kb net reorgE) c.srcIdx c.dstIdx K) := rfl

theorem applyContribs_append (net : Network) (reorgE : ℚ) (a b : List Contrib)
    (K : ℕ → ℕ → ℝ) :
    applyContribs net reorgE (a ++ b) K = applyContribs net reorgE b (applyContribs net reorgE a K) := by
  simp [applyContribs, List.foldl_append]

theorem mem_pairList (m : ℕ) (p : ℕ × ℕ) (h : p ∈ pairList m) : p.1 < m ∧ p.2 < m := by
  unfold pairList at h
  simp only [List.mem_flatMap, List.mem_map, List.mem_range] at h
  obtain ⟨i, hi, j, hj, rfl⟩ := h
  exact ⟨hi, hj⟩

theorem stateRateContribs_idx_lt (net : Network) (allow : List ℕ)
    (cofi redi coff redf num : ℕ) (dis : ℚ) :
    ∀ c ∈ stateRateContribs net allow cofi redi coff redf num dis,
      c.srcIdx < allow.length ∧ c.dstIdx < allow.length := by
  intro c hc
  unfold stateRateContribs at hc
  rw [List.mem_filterMap] at hc
  obtain ⟨p, hp, hcp⟩ := hc
  split at hcp
  · cases hcp
    exact mem_pairList _ _ hp
  · exact absurd hcp (by simp)

theorem reservoirContribs_idx_lt (net : Network) (allow : List ℕ) (r : Reservoir) :
    ∀ c ∈ reservoirContribs net allow r,
      c.srcIdx < allow.length ∧ c.dstIdx < allow.length := by
  intro c hc
  unfold reservoirContribs at hc
  rw [List.mem_filterMap] at hc
  obtain ⟨p, hp, hcp⟩ := hc
  split at hcp
  · cases hcp
    exact mem_pairList _ _ hp
  · exact absurd hcp (by simp)

theorem allContribs_idx_lt (net : Network) :
    ∀ c ∈ allContribs net (allowedList net),
      c.srcIdx < adjNumState net ∧ c.dstIdx < adjNumState net := by
  intro c hc
  unfold allContribs at hc
  rw [List.mem_append] at hc
  rcases hc with hc | hc
  · unfold etContribs at hc
    rw [List.mem_flatMap] at hc
    obtain ⟨call, _, hc⟩ := hc
    exact stateRateContribs_idx_lt net (allowedList net) _ _ _ _ _ _ c hc
  · rw [List.mem_flatMap] at hc
    obtain ⟨r, _, hc⟩ := hc
    exact reservoirContribs_idx_lt net (allowedList net) r c hc

/-! ## Column sums -/

theorem sum_ite_pair (m a : ℕ) (ha : a < m) (c : Prop) [Decidable c] (x : ℝ) :
    ∑ p ∈ Finset.range m, (if p = a ∧ c then x else 0) = if c then x else 0 := by
  by_cases hc : c
  · simp only [hc, and_true, if_true]
    rw [Finset.sum_ite_eq' (Finset.range m) a (fun _ => x)]
    simp [Finset.mem_range.mpr ha]
  · simp [hc]

/-- One four-cell accumulation step leaves every column sum of the `m`-by-`m`
block unchanged (the `+kf` at `(j,i)` cancels the `-kf` at `(i,i)` within column
`i`, and likewise for `kb` within column `j`). -/
theorem applyPairUpdate_colSum (m : ℕ) (kf kb : ℝ) (i j : ℕ) (hi : i < m) (hj : j < m)
    (K : ℕ → ℕ → ℝ) (q : ℕ) :
    ∑ p ∈ Finset.range m, applyPairUpdate kf kb i j K p q = ∑ p ∈ Finset.range m, K p q := by
  unfold applyPairUpdate
  rw [Finset.sum_add_distrib, Finset.sum_sub_distrib, Finset.sum_add_distrib,
    Finset.sum_sub_distrib, sum_ite_pair m j hj (q = i) kf, sum_ite_pair m i hi (q = i) kf,
    sum_ite_pair m i hi (q = j) kb, sum_ite_pair m j hj (q = j) kb]
  ring

theorem applyContribs_colSum (net : Network) (reorgE : ℚ) (m : ℕ) :
    ∀ (l : List Contrib), (∀ c ∈ l, c.srcIdx < m ∧ c.dstIdx < m) →
      ∀ (K : ℕ → ℕ → ℝ) (q : ℕ),
        ∑ p ∈ Finset.range m, applyContribs net reorgE l K p q =
          ∑ p ∈ Finset.range m, K p q := by
  intro l
  induction l with
  | nil => intro _ K q; rfl
  | cons c l ih =>
      intro h K q
      have hc := h c (List.mem_cons_self c l)
      have hrest : ∀ d ∈ l, d.srcIdx < m ∧ d.dstIdx < m :=
        fun d hd => h d (List.mem_cons_of_mem c hd)
      rw [applyContribs_cons, ih hrest,
        applyPairUpdate_colSum m _ _ _ _ hc.1 hc.2]

/-! ## Nonnegativity -/

theorem hbarPlanck_nonneg : (0 : ℝ) ≤ hbarPlanck := by
  unfold hbarPlanck
  positivity

theorem ET_nonneg (hbar deltaG R reorgE beta V vibfreq : ℝ) (quanta : ℕ) (D : ℝ)
    (hhbar : 0 ≤ hbar) (hD : 0 ≤ D) :
    0 ≤ ET hbar deltaG R reorgE beta V vibfreq quanta D := by
  unfold ET
  refine Finset.sum_nonneg (fun n _ => ?_)
  have h1 : 0 ≤ 2 * Real.pi / hbar := div_nonneg (by positivity) hhbar
  have h2 : 0 ≤ (V * Real.exp (-0.6 * R)) ^ 2 := sq_nonneg _
  have h3 : 0 ≤ 1 / Real.sqrt (4 * Real.pi * (1 / beta) * reorgE) :=
    div_nonneg zero_le_one (Real.sqrt_nonneg _)
  have h4 : 0 ≤ Real.exp (-beta * (deltaG + (n : ℝ) * vibfreq + reorgE) ^ 2 / (4 * reorgE)) :=
    le_of_lt (Real.exp_pos _)
  have h5 : 0 ≤ Real.exp (-D) * D ^ n / (Nat.factorial n : ℝ) :=
    div_nonneg (mul_nonneg (le_of_lt (Real.exp_pos _)) (pow_nonneg hD n)) (Nat.cast_nonneg _)
  exact mul_nonneg (mul_nonneg (mul_nonneg (mul_nonneg h1 h2) h3) h4) h5

theorem allContribs_kf_nonneg (net : Network) (reorgE : ℚ)
    (hres : ∀ r ∈ net.reservoirs, 0 ≤ r.rate) :
    ∀ c ∈ allContribs net (allowedList net),
      0 ≤ c.kf net reorgE ∧ 0 ≤ c.kb net reorgE := by
  intro c hc
  have hkf : 0 ≤ c.kf net reorgE := by
    unfold allContribs at hc
    rw [List.mem_append] at hc
    rcases hc with hc | hc
    · unfold etContribs at hc
      rw [List.mem_flatMap] at hc
      obtain ⟨call, _, hc⟩ := hc
      unfold stateRateContribs at hc
      rw [List.mem_filterMap] at hc
      obtain ⟨p, _, hcp⟩ := hc
      split at hcp
      · cases hcp
        exact ET_nonneg _ _ _ _ _ _ _ _ _ hbarPlanck_nonneg (by norm_num)
      · exact absurd hcp (by simp)
    · rw [List.mem_flatMap] at hc
      obtain ⟨r, hr, hc⟩ := hc
      unfold reservoirContribs at hc
      rw [List.mem_filterMap] at hc
      obtain ⟨p, _, hcp⟩ := hc
      split at hcp
      · cases hcp
        exact_mod_cast Rat.cast_nonneg.mpr (hres r hr)
      · exact absurd hcp (by simp)
  exact ⟨hkf, mul_nonneg hkf (le_of_lt (Real.exp_pos _))⟩

theorem applyPairUpdate_offdiag_nonneg (kf kb : ℝ) (hkf : 0 ≤ kf) (hkb : 0 ≤ kb) (i j : ℕ)
    (K : ℕ → ℕ → ℝ) (hK : ∀ p q, p ≠ q → 0 ≤ K p q) :
    ∀ p q, p ≠ q → 0 ≤ applyPairUpdate kf kb i j K p q := by
  intro p q hpq
  unfold applyPairUpdate
  have hii : ¬(p = i ∧ q = i) := fun h => hpq (h.1.trans h.2.symm)
  have hjj : ¬(p = j ∧ q = j) := fun h => hpq (h.1.trans h.2.symm)
  rw [if_neg hii, if_neg hjj]
  have t1 : 0 ≤ (if p = j ∧ q = i then kf else 0) := by
    split
    · exact hkf
    · exact le_refl 0
  have t2 : 0 ≤ (if p = i ∧ q = j then kb else 0) := by
    split
    · exact hkb
    · exact le_refl 0
  have := add_nonneg (hK p q hpq) (add_nonneg t1 t2)
  calc (0 : ℝ) ≤ K p q + ((if p = j ∧ q = i then kf else 0) + (if p = i ∧ q = j then kb else 0)) := this
    _ = K p q + ((if p = j ∧ q = i then kf else 0) - 0 + (if p = i ∧ q = j then kb else 0) - 0) := by ring

theorem applyContribs_offdiag_nonneg (net : Network) (reorgE : ℚ) :
    ∀ (l : List Contrib), (∀ c ∈ l, 0 ≤ c.kf net reorgE ∧ 0 ≤ c.kb net reorgE) →
      ∀ (K : ℕ → ℕ → ℝ), (∀ p q, p ≠ q → 0 ≤ K p q) →
        ∀ p q, p ≠ q → 0 ≤ applyContribs net reorgE l K p q := by
  intro l
  induction l with
  | nil => intro _ K hK; exact hK
  | cons c l ih =>
      intro h K hK
      rw [applyContribs_cons]
      have hc := h c (List.mem_cons_self c l)
      exact ih (fun d hd => h d (List.mem_cons_of_mem c hd)) _
        (applyPairUpdate_offdiag_nonneg _ _ hc.1 hc.2 _ _ _ hK)

/-! ## The reservoir fold: rate matrix and frame effect -/

theorem reservoir_fold_K (reorgE : ℚ) (net : Network) (al : List ℕ) :
    ∀ (rs : List Reservoir) (mx : Option ℤ) (K : ℕ → ℕ → ℝ),
      (rs.foldl (connectReservoirRate_state reorgE)
          ⟨{ net with maxElectrons := mx }, al, K⟩).K
          = applyContribs net reorgE (rs.flatMap (reservoirContribs net al)) K ∧
      (rs.foldl (connectReservoirRate_state reorgE)
          ⟨{ net with maxElectrons := mx }, al, K⟩).conf
          = { net with
              maxElectrons := rs.foldl (fun _acc _ => some ((siteCapacity net).sum : ℤ)) mx } ∧
      (rs.foldl (connectReservoirRate_state reorgE)
          ⟨{ net with maxElectrons := mx }, al, K⟩).allow = al := by
  intro rs
  induction rs with
  | nil => intro mx K; exact ⟨rfl, rfl, rfl⟩
  | cons r rs ih =>
      intro mx K
      have hstep : connectReservoirRate_state reorgE ⟨{ net with maxElectrons := mx }, al, K⟩ r
          = ⟨{ net with maxElectrons := some ((siteCapacity net).sum : ℤ) }, al,
              applyContribs net reorgE (reservoirContribs net al r) K⟩ := rfl
      simp only [List.foldl_cons, List.flatMap_cons, hstep]
      have h := ih (some ((siteCapacity net).sum : ℤ))
        (applyContribs net reorgE (reservoirContribs net al r) K)
      exact ⟨by rw [h.1, ← applyContribs_append], h.2.1, h.2.2⟩

theorem builtK_eq (net : Network) (reorgE : ℚ) :
    builtK net reorgE =
      applyContribs net reorgE (allContribs net (allowedList net)) (fun _ _ => 0) := by
  unfold builtK constructRateMatrix_state allContribs
  show (net.reservoirs.foldl (connectReservoirRate_state reorgE)
      ⟨{ net with maxElectrons := net.maxElectrons }, allowedList net,
        applyContribs net reorgE (etContribs net (allowedList net)) (fun _ _ => 0)⟩).K = _
  rw [(reservoir_fold_K reorgE net (allowedList net) net.reservoirs net.maxElectrons
    (applyContribs net reorgE (etContribs net (allowedList net)) (fun _ _ => 0))).1,
    ← applyContribs_append]

theorem foldl_const_of_ne_nil {α β : Type} (v : β) :
    ∀ (rs : List α) (mx : β), rs ≠ [] → rs.foldl (fun _acc _ => v) mx = v := by
  intro rs
  induction rs with
  | nil => intro mx h; exact absurd rfl h
  | cons r rs ih =>
      intro mx _
      simp only [List.foldl_cons]
      by_cases h : rs = []
      · subst h; rfl
      · exact ih v h

/-- C10: if at least one reservoir is registered, `constructRateMatrix`
overwrites `max_electrons` with the sum of all cofactor capacities (whatever
bound the caller had set via `set_Max_Electrons`), while `min_electrons` and
the cofactor registry are left unchanged by the same call. -/
theorem constructRateMatrix_sets_max_electrons (net : Network) (al : List ℕ)
    (K0 : ℕ → ℕ → ℝ) (reorgE : ℚ) (h : net.reservoirs ≠ []) :
    (constructRateMatrix_state ⟨net, al, K0⟩ reorgE).conf.maxElectrons
        = some (((siteCapacity net).sum : ℤ)) ∧
    (constructRateMatrix_state ⟨net, al, K0⟩ reorgE).conf.minElectrons = net.minElectrons ∧
    (constructRateMatrix_state ⟨net, al, K0⟩ reorgE).conf.cofactors = net.cofactors := by
  unfold constructRateMatrix_state
  have hfold := (reservoir_fold_K reorgE net al net.reservoirs net.maxElectrons
    (applyContribs net reorgE (etContribs net al) (fun _ _ => 0))).2.1
  have hconf : (net.reservoirs.foldl (connectReservoirRate_state reorgE)
      { (⟨net, al, K0⟩ : NetworkState) with
        K := applyContribs net reorgE (etContribs net al) (fun _ _ => 0) }).conf
      = { net with
          maxElectrons := net.reservoirs.foldl
            (fun _acc _ => some ((siteCapacity net).sum : ℤ)) net.maxElectrons } := hfold
  rw [hconf, foldl_const_of_ne_nil _ _ _ h]
  exact ⟨rfl, rfl, rfl⟩

/-- Witness network for C10: one capacity-1 cofactor, one reservoir, caller-set
bound `max_electrons = 0` strictly below the total capacity 1. -/
def netC10 : Network :=
  ⟨[[1]], [], [⟨0, 1, 1, 0, 1⟩], some 0, some 0, 39.06, 0.01, 8⟩

/-- Witness for C10: after the build, `max_electrons` is the total capacity
`some 1` (not the caller-set `some 0`), and `min_electrons` and the registry
are unchanged. -/
theorem constructRateMatrix_sets_max_electrons_witness :
    netC10.reservoirs ≠ [] ∧
    (constructRateMatrix_state ⟨netC10, [0, 1], fun _ _ => 0⟩ (1/5)).conf.maxElectrons
        = some (((siteCapacity netC10).sum : ℤ)) ∧
    (constructRateMatrix_state ⟨netC10, [0, 1], fun _ _ => 0⟩ (1/5)).conf.minElectrons
        = netC10.minElectrons ∧
    (constructRateMatrix_state ⟨netC10, [0, 1], fun _ _ => 0⟩ (1/5)).conf.cofactors
        = netC10.cofactors :=
  ⟨by decide, constructRateMatrix_sets_max_electrons netC10 [0, 1] (fun _ _ => 0) (1/5) (by decide)⟩

/-- C4: after `constructRateMatrix` completes (reservoir contributions
included), every column of the built generator matrix sums to zero in exact
arithmetic, every off-diagonal entry is nonnegative given nonnegative
caller-supplied reservoir rates, and each individual four-cell accumulation
step of `connectStateRate` / `connectReservoirRate` preserves column sums
(hence the zero-column-sum property) exactly. -/
theorem rate_matrix_generator_invariants (net : Network) (reorgE : ℚ)
    (hres : ∀ r ∈ net.reservoirs, 0 ≤ r.rate) :
    (∀ q : ℕ, ∑ p ∈ Finset.range (adjNumState net), builtK net reorgE p q = 0) ∧
    (∀ p q : ℕ, p ≠ q → 0 ≤ builtK net reorgE p q) ∧
    (∀ (m : ℕ) (kf kb : ℝ) (i j : ℕ), i < m → j < m → ∀ (K : ℕ → ℕ → ℝ) (q : ℕ),
      ∑ p ∈ Finset.range m, applyPairUpdate kf kb i j K p q =
        ∑ p ∈ Finset.range m, K p q) := by
  refine ⟨fun q => ?_, fun p q hpq => ?_, fun m kf kb i j hi hj K q =>
    applyPairUpdate_colSum m kf kb i j hi hj K q⟩
  · rw [builtK_eq,
      applyContribs_colSum net reorgE (adjNumState net) _ (allContribs_idx_lt net) _ q]
    simp
  · rw [builtK_eq]
    exact applyContribs_offdiag_nonneg net reorgE _
      (allContribs_kf_nonneg net reorgE hres) _ (fun _ _ _ => le_refl 0) p q hpq

/-- Witness network for C4: one capacity-1 cofactor with one reservoir of
nonnegative rate 1 (so both the cofactor-pair and the reservoir phases are
exercised by the same generator). -/
def netC4 : Network :=
  ⟨[[0]], [], [⟨0, 1, 1, 1, 1⟩], none, none, 39.06, 0.01, 8⟩

/-- Witness for C4: the reservoir rates of `netC4` are nonnegative and column 0
of its built generator sums to zero. -/
theorem rate_matrix_generator_invariants_witness :
    (∀ r ∈ netC4.reservoirs, 0 ≤ r.rate) ∧
    ∑ p ∈ Finset.range (adjNumState netC4), builtK netC4 (1/5) p 0 = 0 :=
  ⟨by decide, (rate_matrix_generator_invariants netC4 (1/5) (by decide)).1 0⟩

/-! ## Detailed balance (C3)

`builtK` is a fold of four-cell updates; its entries are sums of per-contribution
terms, which lets individual off-diagonal cells be read off when exactly one
contribution targets them. -/

/-- The net change that one matched contribution makes to entry `(p, q)`. -/
noncomputable def contribTerm (net : Network) (reorgE : ℚ) (c : Contrib) (p q : ℕ) : ℝ :=
  (if p = c.dstIdx ∧ q = c.srcIdx then c.kf net reorgE else 0)
    - (if p = c.srcIdx ∧ q = c.srcIdx then c.kf net reorgE else 0)
    + (if p = c.srcIdx ∧ q = c.dstIdx then c.kb net reorgE else 0)
    - (if p = c.dstIdx ∧ q = c.dstIdx then c.kb net reorgE else 0)

theorem applyContribs_apply (net : Network) (reorgE : ℚ) :
    ∀ (l : List Contrib) (K : ℕ → ℕ → ℝ) (p q : ℕ),
      applyContribs net reorgE l K p q =
        K p q + (l.map (fun c => contribTerm net reorgE c p q)).sum := by
  intro l
  induction l with
  | nil => intro K p q; simp [applyContribs_nil]
  | cons c l ih =>
      intro K p q
      rw [applyContribs_cons, ih]
      simp only [List.map_cons, List.sum_cons]
      unfold applyPairUpdate contribTerm
      ring

theorem contribTerm_offdiag (net : Network) (reorgE : ℚ) (c : Contrib) (i j : ℕ)
    (hij : i ≠ j) :
    contribTerm net reorgE c j i =
      (if c.srcIdx = i ∧ c.dstIdx = j then c.kf net reorgE else 0)
        + (if c.srcIdx = j ∧ c.dstIdx = i then c.kb net reorgE else 0) := by
  unfold contribTerm
  have h2 : ¬(j = c.srcIdx ∧ i = c.srcIdx) := fun h => hij (h.2.trans h.1.symm)
  have h4 : ¬(j = c.dstIdx ∧ i = c.dstIdx) := fun h => hij (h.2.trans h.1.symm)
  have e1 : (j = c.dstIdx ∧ i = c.srcIdx) ↔ (c.srcIdx = i ∧ c.dstIdx = j) :=
    ⟨fun h => ⟨h.2.symm, h.1.symm⟩, fun h => ⟨h.2.symm, h.1.symm⟩⟩
  have e2 : (j = c.srcIdx ∧ i = c.dstIdx) ↔ (c.srcIdx = j ∧ c.dstIdx = i) :=
    ⟨fun h => ⟨h.1.symm, h.2.symm⟩, fun h => ⟨h.1.symm, h.2.symm⟩⟩
  rw [if_neg h2, if_neg h4, sub_zero, sub_zero, if_congr e1 rfl rfl, if_congr e2 rfl rfl]

theorem sum_map_add_split (f g : Contrib → ℝ) :
    ∀ l : List Contrib,
      (l.map (fun c => f c + g c)).sum = (l.map f).sum + (l.map g).sum := by
  intro l
  induction l with
  | nil => simp
  | cons c l ih => simp [ih]; ring

theorem sum_map_ite_filter (f : Contrib → ℝ) (P : Contrib → Prop) [DecidablePred P] :
    ∀ l : List Contrib,
      (l.map (fun c => if P c then f c else 0)).sum =
        ((l.filter (fun c => decide (P c))).map f).sum := by
  intro l
  induction l with
  | nil => rfl
  | cons c l ih =>
      by_cases h : P c <;> simp [List.filter_cons, h, ih]

/-- If exactly one contribution of the assembly targets the ordered state pair
`(i, j)` and none targets `(j, i)`, the built matrix holds the forward rate at
`K[j][i]` and the matching backward rate at `K[i][j]`. -/
theorem builtK_offdiag_single (net : Network) (reorgE : ℚ) (i j : ℕ) (hij : i ≠ j)
    (c0 : Contrib)
    (hfwd : (allContribs net (allowedList net)).filter
        (fun c => decide (c.srcIdx = i ∧ c.dstIdx = j)) = [c0])
    (hrev : (allContribs net (allowedList net)).filter
        (fun c => decide (c.srcIdx = j ∧ c.dstIdx = i)) = []) :
    builtK net reorgE j i = c0.kf net reorgE ∧
    builtK net reorgE i j = c0.kb net reorgE := by
  have hK : ∀ p q, builtK net reorgE p q =
      ((allContribs net (allowedList net)).map
        (fun c => contribTerm net reorgE c p q)).sum := by
    intro p q
    rw [builtK_eq, applyContribs_apply]
    simp
  constructor
  · rw [hK j i]
    have he : ∀ c : Contrib, contribTerm net reorgE c j i =
        (if c.srcIdx = i ∧ c.dstIdx = j then c.kf net reorgE else 0)
          + (if c.srcIdx = j ∧ c.dstIdx = i then c.kb net reorgE else 0) :=
      fun c => contribTerm_offdiag net reorgE c i j hij
    calc ((allContribs net (allowedList net)).map
          (fun c => contribTerm net reorgE c j i)).sum
        = ((allContribs net (allowedList net)).map
            (fun c => (if c.srcIdx = i ∧ c.dstIdx = j then c.kf net reorgE else 0)
              + (if c.srcIdx = j ∧ c.dstIdx = i then c.kb net reorgE else 0))).sum := by
          exact congrArg List.sum (List.map_congr_left (fun c _ => he c))
      _ = c0.kf net reorgE := by
          rw [sum_map_add_split, sum_map_ite_filter, sum_map_ite_filter, hfwd, hrev]
          simp
  · rw [hK i j]
    have he : ∀ c : Contrib, contribTerm net reorgE c i j =
        (if c.srcIdx = j ∧ c.dstIdx = i then c.kf net reorgE else 0)
          + (if c.srcIdx = i ∧ c.dstIdx = j then c.kb net reorgE else 0) :=
      fun c => contribTerm_offdiag net reorgE c j i (Ne.symm hij)
    calc ((allContribs net (allowedList net)).map
          (fun c => contribTerm net reorgE c i j)).sum
        = ((allContribs net (allowedList net)).map
            (fun c => (if c.srcIdx = j ∧ c.dstIdx = i then c.kf net reorgE else 0)
              + (if c.srcIdx = i ∧ c.dstIdx = j then c.kb net reorgE else 0))).sum := by
          exact congrArg List.sum (List.map_congr_left (fun c _ => he c))
      _ = c0.kb net reorgE := by
          rw [sum_map_add_split, sum_map_ite_filter, sum_map_ite_filter, hfwd, hrev]
          simp

theorem netC4_allContribs :
    allContribs netC4 (allowedList netC4) = [Contrib.res 1 0 1 1] := by decide

theorem netC4_K01 : builtK netC4 (1/5) 0 1 = 1 := by
  rw [builtK_eq, netC4_allContribs, applyContribs_cons, applyContribs_nil]
  unfold applyPairUpdate
  norm_num [Contrib.kf, Contrib.srcIdx, Contrib.dstIdx]

theorem netC4_K10 :
    builtK netC4 (1/5) 1 0 = Real.exp (((39.06 : ℚ) : ℝ) * ((1 : ℚ) : ℝ)) := by
  rw [builtK_eq, netC4_allContribs, applyContribs_cons, applyContribs_nil]
  unfold applyPairUpdate
  norm_num [Contrib.kb, Contrib.kf, Contrib.deltaG, Contrib.srcIdx, Contrib.dstIdx, netC4]

theorem netC4_dGmodel :
    freeEnergySpec netC4.cofactors (Dmat netC4) netC4.eps_r
        (stateOfA netC4 (allowedList netC4) 0)
      - freeEnergySpec netC4.cofactors (Dmat netC4) netC4.eps_r
        (stateOfA netC4 (allowedList netC4) 1) = 0 := by
  have hs0 : stateOfA netC4 (allowedList netC4) 0 = [0] := by decide
  have hs1 : stateOfA netC4 (allowedList netC4) 1 = [1] := by decide
  rw [hs0, hs1]
  simp [freeEnergySpec, potentialAtLevel, netC4]

/-- C3 counterexample: in `netC4` (one capacity-1 cofactor with zero potential,
one reservoir with stored `deltaG = 1`, `rate = 1`), the final matrix has the
nonzero pair `K[0][1] = 1` (forward, transition from compressed state 1 = `[1]`
to state 0 = `[0]`) and `K[1][0] = exp(beta * 1)` (backward), yet the
forward/backward ratio does not equal `exp(-beta * deltaG)` for the `deltaG`
recomputed independently from the free-energy model (which is 0 here): the
reservoir accumulation uses the caller-supplied reservoir `deltaG`, not the
free-energy model.  Stated as: `K[0][1] * exp(beta * deltaG_model) = K[1][0]`
fails although both entries are nonzero. -/
theorem detailed_balance_counterexample :
    builtK netC4 (1/5) 0 1 ≠ 0 ∧
    builtK netC4 (1/5) 1 0 ≠ 0 ∧
    ¬ (builtK netC4 (1/5) 0 1 * Real.exp ((netC4.beta : ℝ) *
        ((freeEnergySpec netC4.cofactors (Dmat netC4) netC4.eps_r
            (stateOfA netC4 (allowedList netC4) 0)
          - freeEnergySpec netC4.cofactors (Dmat netC4) netC4.eps_r
            (stateOfA netC4 (allowedList netC4) 1) : ℚ) : ℝ))
        = builtK netC4 (1/5) 1 0) := by
  refine ⟨by rw [netC4_K01]; norm_num, by rw [netC4_K10]; exact Real.exp_ne_zero _, ?_⟩
  intro h
  rw [netC4_K01, netC4_K10, netC4_dGmodel, Rat.cast_zero, mul_zero, Real.exp_zero,
    one_mul] at h
  have h2 := (Real.exp_eq_one_iff _).mp h.symm
  norm_num at h2

/-- C3 (amended): for every matched compressed-state pair found during
rate-matrix assembly (cofactor-to-cofactor and reservoir transitions alike), the
backward contribution accumulated into `K[i][j]` equals the forward contribution
times `exp(beta * deltaG)` (first two conjuncts), where for cofactor-to-cofactor
transitions `deltaG` is recomputed from the free-energy model at the matched
state pair (third conjunct); consequently, in the built generator matrix, for
every off-diagonal pair fed by exactly one forward contribution and no reverse
contribution, the forward/backward ratio equals `exp(-beta * deltaG)` with
`deltaG` the value that contribution used — the free-energy-model value for
cofactor-to-cofactor transitions, the stored reservoir `deltaG` for reservoir
transitions (fourth conjunct). -/
theorem detailed_balance_amended (net : Network) (reorgE : ℚ) :
    (∀ (kf dG b : ℝ) (i j : ℕ) (K : ℕ → ℕ → ℝ), i ≠ j →
      applyPairUpdate kf (kf * Real.exp (b * dG)) i j K i j - K i j
        = (applyPairUpdate kf (kf * Real.exp (b * dG)) i j K j i - K j i)
            * Real.exp (b * dG)) ∧
    (∀ c : Contrib,
      c.kb net reorgE = c.kf net reorgE * Real.exp ((net.beta : ℝ) * (c.deltaG : ℝ))) ∧
    (∀ c ∈ etContribs net (allowedList net),
      c.deltaG = deltaG_coulomb_calculation net.cofactors (Dmat net) net.eps_r
        (stateOfA net (allowedList net) c.srcIdx)
        (stateOfA net (allowedList net) c.dstIdx)) ∧
    (∀ (i j : ℕ), i ≠ j → ∀ c0 : Contrib,
      (allContribs net (allowedList net)).filter
          (fun c => decide (c.srcIdx = i ∧ c.dstIdx = j)) = [c0] →
      (allContribs net (allowedList net)).filter
          (fun c => decide (c.srcIdx = j ∧ c.dstIdx = i)) = [] →
      builtK net reorgE j i = c0.kf net reorgE ∧
      builtK net reorgE i j = builtK net reorgE j i
        * Real.exp ((net.beta : ℝ) * (c0.deltaG : ℝ))) := by
  refine ⟨?_, fun c => rfl, ?_, ?_⟩
  · intro kf dG b i j K hij
    have hji : j ≠ i := Ne.symm hij
    simp only [applyPairUpdate, hij, hji]
    norm_num
  · intro c hc
    unfold etContribs at hc
    rw [List.mem_flatMap] at hc
    obtain ⟨call, _, hc⟩ := hc
    unfold stateRateContribs at hc
    rw [List.mem_filterMap] at hc
    obtain ⟨p, _, hcp⟩ := hc
    split at hcp
    · cases hcp
      rfl
    · exact absurd hcp (by simp)
  · intro i j hij c0 hfwd hrev
    obtain ⟨h1, h2⟩ := builtK_offdiag_single net reorgE i j hij c0 hfwd hrev
    refine ⟨h1, ?_⟩
    rw [h1, h2]
    rfl

/-- Witness for C3 (amended) on `netC4`: the pair `(1, 0)` is fed by exactly the
single reservoir contribution and no reverse contribution, and the built matrix
satisfies the stated forward/backward relation with the reservoir `deltaG`. -/
theorem detailed_balance_amended_witness :
    (1 : ℕ) ≠ 0 ∧
    (allContribs netC4 (allowedList netC4)).filter
        (fun c => decide (c.srcIdx = 1 ∧ c.dstIdx = 0)) = [Contrib.res 1 0 1 1] ∧
    (allContribs netC4 (allowedList netC4)).filter
        (fun c => decide (c.srcIdx = 0 ∧ c.dstIdx = 1)) = [] ∧
    (builtK netC4 (1/5) 0 1 = (Contrib.res 1 0 1 1).kf netC4 (1/5) ∧
      builtK netC4 (1/5) 1 0 = builtK netC4 (1/5) 0 1
        * Real.exp ((netC4.beta : ℝ) * (((Contrib.res 1 0 1 1).deltaG : ℚ) : ℝ))) :=
  ⟨by decide, by decide, by decide,
    (detailed_balance_amended netC4 (1/5)).2.2.2 1 0 (by decide) (Contrib.res 1 0 1 1)
      (by decide) (by decide)⟩

/-! ## Deterministic propagation (`evolve`, lines 162-176)

`evolve(t, pop_init) = expm(self.K * t) @ pop_init`.  The exact-arithmetic
counterpart uses the analytic matrix exponential. -/

/-- The map `A ↦ u ᵥ* A`, linear in the matrix. -/
def vecMulLeft (m : ℕ) (u : Fin m → ℝ) :
    Matrix (Fin m) (Fin m) ℝ →ₗ[ℝ] (Fin m → ℝ) where
  toFun := fun A => Matrix.vecMul u A
  map_add' := fun A B => Matrix.vecMul_add A B u
  map_smul' := fun c A => by
    funext j
    simp only [Matrix.vecMul, Matrix.dotProduct, Matrix.smul_apply, RingHom.id_apply,
      Pi.smul_apply, smul_eq_mul, Finset.mul_sum]
    refine Finset.sum_congr rfl (fun p _ => ?_)
    ring

theorem vecMul_pow_eq_zero (m : ℕ) (M : Matrix (Fin m) (Fin m) ℝ) (u : Fin m → ℝ)
    (h : Matrix.vecMul u M = 0) : ∀ n : ℕ, 1 ≤ n → Matrix.vecMul u (M ^ n) = 0 := by
  intro n hn
  induction n with
  | zero => omega
  | succ k ih =>
      rcases Nat.eq_zero_or_pos k with hk | hk
      · subst hk
        simpa [pow_one] using h
      · rw [pow_succ, ← Matrix.vecMul_vecMul, ih hk, Matrix.zero_vecMul]

/-- Left eigenvector at eigenvalue 0 of `M` is fixed by `exp M`: summing the
exponential series, only the `n = 0` term survives under `u ᵥ* -`. -/
theorem vecMul_exp_eq_self (m : ℕ) (M : Matrix (Fin m) (Fin m) ℝ) (u : Fin m → ℝ)
    (h : Matrix.vecMul u M = 0) :
    Matrix.vecMul u (NormedSpace.exp ℝ M) = u := by
  letI : SeminormedRing (Matrix (Fin m) (Fin m) ℝ) := Matrix.linftyOpSemiNormedRing
  letI : NormedRing (Matrix (Fin m) (Fin m) ℝ) := Matrix.linftyOpNormedRing
  letI : NormedAlgebra ℝ (Matrix (Fin m) (Fin m) ℝ) := Matrix.linftyOpNormedAlgebra
  have hsum : HasSum (fun n : ℕ => ((Nat.factorial n : ℝ)⁻¹) • M ^ n)
      (NormedSpace.exp ℝ M) := NormedSpace.exp_series_hasSum_exp' M
  have hL := hsum.mapL (LinearMap.toContinuousLinearMap (vecMulLeft m u))
  have hfun : (fun n : ℕ =>
      LinearMap.toContinuousLinearMap (vecMulLeft m u) (((Nat.factorial n : ℝ)⁻¹) • M ^ n))
      = fun n : ℕ => if n = 0 then u else 0 := by
    funext n
    rcases Nat.eq_zero_or_pos n with h0 | h1
    · subst h0
      simp [vecMulLeft, Matrix.vecMul_one]
    · have hz := vecMul_pow_eq_zero m M u h n h1
      have hn0 : n ≠ 0 := Nat.pos_iff_ne_zero.mp h1
      simp [vecMulLeft, hz, hn0]
  rw [hfun] at hL
  have h2 : HasSum (fun n : ℕ => if n = 0 then u else (0 : Fin m → ℝ)) u :=
    hasSum_ite_eq 0 u
  have h3 := hL.unique h2
  simpa [vecMulLeft] using h3

/-- The built generator as a square matrix over the compressed state space. -/
noncomputable def Kmat (net : Network) (reorgE : ℚ) :
    Matrix (Fin (adjNumState net)) (Fin (adjNumState net)) ℝ :=
  Matrix.of (fun p q => builtK net reorgE (p : ℕ) (q : ℕ))

/-- `evolve(self, t, pop_init)` (lines 162-176): `expm(self.K * t) @ pop_init`
with `self.K` the built rate matrix. -/
noncomputable def evolve (net : Network) (reorgE : ℚ) (t : ℝ)
    (pop : Fin (adjNumState net) → ℝ) : Fin (adjNumState net) → ℝ :=
  Matrix.mulVec (NormedSpace.exp ℝ (t • Kmat net reorgE)) pop

theorem Kmat_colSum (net : Network) (reorgE : ℚ) (q : Fin (adjNumState net)) :
    ∑ p, Kmat net reorgE p q = 0 := by
  have h0 : ∑ p ∈ Finset.range (adjNumState net), builtK net reorgE p (q : ℕ) = 0 := by
    rw [builtK_eq,
      applyContribs_colSum net reorgE (adjNumState net) _ (allContribs_idx_lt net)]
    simp
  rw [← h0, ← Fin.sum_univ_eq_sum_range (fun p => builtK net reorgE p (q : ℕ))
    (adjNumState net)]
  rfl

/-- C6: for a network with no reservoirs whose rate matrix has been fully
built, and for every initial population vector over the compressed state space
with nonnegative entries summing to 1, the entries of
`evolve(t, pop0) = expm(K*t) @ pop0` sum to 1 for every `t ≥ 0`. -/
theorem evolve_conserves_probability (net : Network) (reorgE : ℚ)
    (hres : net.reservoirs = []) (t : ℝ) (ht : 0 ≤ t)
    (pop : Fin (adjNumState net) → ℝ) (hpos : ∀ i, 0 ≤ pop i)
    (hsum : ∑ i, pop i = 1) :
    ∑ i, evolve net reorgE t pop i = 1 := by
  have hcol : Matrix.vecMul (fun _ => (1 : ℝ)) (t • Kmat net reorgE) = 0 := by
    funext q
    have hq := Kmat_colSum net reorgE q
    simp only [Matrix.vecMul, Matrix.dotProduct, Matrix.smul_apply, one_mul,
      smul_eq_mul, Pi.zero_apply]
    rw [← Finset.mul_sum, hq, mul_zero]
  have hexp := vecMul_exp_eq_self (adjNumState net) (t • Kmat net reorgE)
    (fun _ => 1) hcol
  unfold evolve
  calc ∑ i, Matrix.mulVec (NormedSpace.exp ℝ (t • Kmat net reorgE)) pop i
      = ∑ j, (Matrix.vecMul (fun _ => (1 : ℝ))
          (NormedSpace.exp ℝ (t • Kmat net reorgE))) j * pop j := by
        simp only [Matrix.mulVec, Matrix.vecMul, Matrix.dotProduct, one_mul]
        rw [Finset.sum_comm]
        refine Finset.sum_congr rfl (fun j _ => ?_)
        rw [Finset.sum_mul]
    _ = ∑ j, pop j := by
        rw [hexp]
        simp
    _ = 1 := hsum

/-- Witness network for C6: a single capacity-1 cofactor, no connections and no
reservoirs; the compressed state space is `[0], [1]`. -/
def netC6 : Network := ⟨[[0]], [], [], none, none, 39.06, 0.01, 8⟩

/-- Witness initial population: all probability on compressed state 0. -/
noncomputable def popC6 : Fin (adjNumState netC6) → ℝ :=
  fun i => if (i : ℕ) = 0 then 1 else 0

/-- Witness for C6: `netC6` is closed, `popC6` is a valid probability vector,
`t = 1 ≥ 0`, and the evolved population still sums to 1. -/
theorem evolve_conserves_probability_witness :
    netC6.reservoirs = [] ∧ (0 : ℝ) ≤ 1 ∧ (∀ i, 0 ≤ popC6 i) ∧
    (∑ i, popC6 i = 1) ∧ ∑ i, evolve netC6 (1/5) 1 popC6 i = 1 := by
  have hpos : ∀ i, 0 ≤ popC6 i := by
    intro i
    simp only [popC6]
    split
    · exact zero_le_one
    · exact le_refl 0
  have hsum : ∑ i, popC6 i = 1 := by
    simp only [popC6]
    rw [Fin.sum_univ_eq_sum_range (fun k => if k = 0 then (1 : ℝ) else 0) (adjNumState netC6),
      (show adjNumState netC6 = 2 by decide)]
    norm_num [Finset.sum_range_succ]
  exact ⟨rfl, zero_le_one, hpos, hsum,
    evolve_conserves_probability netC6 (1/5) rfl 1 zero_le_one popC6 hpos hsum⟩

/-! ## Stochastic sampling (`gillespie_ssa`, lines 660-721)

The sampler is embedded with the random draws `(event, dt)` of
`gillespie_draw` taken as a given input list, as the claim fixes them.  Time
values enter only through `+`, `<` and `≤`, so the embedding is generic over a
linearly ordered type with addition and zero.  Populations are integer count
vectors (`pop_out` has `dtype=np.int`).  `update` is `simple_update`, the
identity matrix (lines 610-612), so `population += update[:, event]` adds 1 to
component `event` (`addCol`); note it never subtracts from the previous state.
`np.searchsorted(time_points > t, True)` on an ascending checkpoint list is the
length of the prefix of checkpoints `≤ t` (`searchsortedGt`).  Rows of
`pop_out` come from `np.empty` and stay uninitialized until assigned, hence
`Option`; the slice assignment `pop_out[i_time:min(i, len)] =
population_previous` is `setRows`.  The outer `while` is driven by a fuel
argument that only bounds its iteration count (each iteration either exits the
loop or consumes at least one draw); the runs below terminate well within the
supplied fuel. -/

def addCol (pop : List ℤ) (ev : ℕ) : List ℤ :=
  pop.mapIdx (fun k v => if k = ev then v + 1 else v)

def searchsortedGt {T : Type} [LinearOrder T] (tps : List T) (t : T) : ℕ :=
  (tps.takeWhile (fun c => decide (c ≤ t))).length

def setRows (out : List (Option (List ℤ))) (lo hi : ℕ) (v : List ℤ) :
    List (Option (List ℤ)) :=
  out.mapIdx (fun k r => if lo ≤ k ∧ k < hi then some v else r)

/-- The inner `while t < time_points[i_time]:` loop of `gillespie_ssa`
(lines 700-713): draw `(event, dt)`, set `x = event`, save
`population_previous`, add the update column, advance `t`. -/
def innerLoop {T : Type} [LinearOrder T] [Add T] (cp : T) :
    List (ℕ × T) → T → List ℤ → List ℤ → ℕ →
      List (ℕ × T) × T × List ℤ × List ℤ × ℕ
  | draws, t, pop, popPrev, x =>
    if t < cp then
      match draws with
      | [] => ([], t, pop, popPrev, x)
      | (ev, dt) :: rest => innerLoop cp rest (t + dt) (addCol pop ev) pop ev
    else (draws, t, pop, popPrev, x)

/-- The outer `while i < len(time_points):` loop of `gillespie_ssa`
(lines 698-719): run the inner loop to the next checkpoint, recompute
`i = np.searchsorted(time_points > t, True)`, assign
`pop_out[i_time:min(i, len(time_points))] = population_previous`, set
`i_time = i`. -/
def outerLoop {T : Type} [LinearOrder T] [Add T] [Zero T] (tps : List T) :
    ℕ → List (ℕ × T) → T → List ℤ → List ℤ → ℕ → ℕ → ℕ →
      List (Option (List ℤ)) → List (Option (List ℤ))
  | 0, _, _, _, _, _, _, _, out => out
  | fuel + 1, draws, t, pop, popPrev, x, i, iTime, out =>
    if i < tps.length then
      match innerLoop (tps.getD iTime 0) draws t pop popPrev x with
      | (draws2, t2, pop2, popPrev2, x2) =>
          outerLoop tps fuel draws2 t2 pop2 popPrev2 x2 (searchsortedGt tps t2)
            (searchsortedGt tps t2)
            (setRows out iTime (min (searchsortedGt tps t2) tps.length) popPrev2)
    else out

/-- `gillespie_ssa(self, propensity_func, update, population_0, time_points, x)`
with the random draws given as input: `pop_out[0, :] = population`, `i_time = 1`,
`i = 0`, `t = time_points[0]`, then the checkpoint loop. -/
def gillespie_ssa {T : Type} [LinearOrder T] [Add T] [Zero T]
    (tps : List T) (draws : List (ℕ × T)) (pop0 : List ℤ) (x : ℕ) :
    List (Option (List ℤ)) :=
  outerLoop tps (draws.length + tps.length + 1) draws (tps.getD 0 0) pop0 pop0 x 0 1
    ((List.range tps.length).map (fun k => if k = 0 then some pop0 else none))

/-- The state occupied at the last event at or before time `c`, starting from
state `x` at time `t` with the given jump draws: the checkpoint semantics the
claim specifies (spec sections 4.6 and 9). -/
def specStateAt {T : Type} [LinearOrder T] [Add T] :
    List (ℕ × T) → T → ℕ → T → ℕ
  | [], _, x, _ => x
  | (ev, dt) :: rest, t, x, c => if t + dt ≤ c then specStateAt rest (t + dt) ev c else x

/-- One-hot integer population row recording a single occupied state. -/
def oneHot (m : ℕ) (x : ℕ) : List ℤ :=
  (List.range m).map (fun k => if k = x then 1 else 0)

/-- C9 evaluation at the failing input: checkpoints `[0, 1]`, initial state 0
(`pop0 = [1, 0]`), one given draw jumping to state 1 with holding time 1, so
the event lands exactly on checkpoint 1.  The claim (and the spec definition)
requires the checkpoint-1 record to be the state occupied at the last event at
or before the checkpoint, i.e. state 1 (`[0, 1]`); the source records
`population_previous`, the pre-event vector `[1, 0]`, because the inner loop
exits on `t < time_points[i_time]` before the boundary event is accounted and
the slice assignment stores the pre-event population. -/
theorem gillespie_checkpoint_boundary_eval :
    gillespie_ssa ([0, 1] : List ℤ) [(1, 1)] [1, 0] 0 = [some [1, 0], some [1, 0]] ∧
    specStateAt ([(1, 1)] : List (ℕ × ℤ)) 0 0 1 = 1 ∧
    oneHot 2 (specStateAt ([(1, 1)] : List (ℕ × ℤ)) 0 0 1) = [0, 1] ∧
    some (oneHot 2 (specStateAt ([(1, 1)] : List (ℕ × ℤ)) 0 0 1)) ≠
      (gillespie_ssa ([0, 1] : List ℤ) [(1, 1)] [1, 0] 0).getD 1 none := by
  refine ⟨by decide, by decide, by decide, by decide⟩

/-! ## One stochastic step (`gillespie_draw`, lines 615-658)

`gillespie_draw` first has `propensity_func` (= `simple_propensity`,
lines 580-591) fill `rateconstants[i] = K[i][x]`, sums the off-diagonal
entries into `gamma`, and then unconditionally evaluates
`np.random.exponential(1.0 / gamma)` and `rateconstants / gamma` before
drawing the next reaction with `sample_discrete` (lines 593-608).  There is no
`gamma == 0` guard: when the current state is absorbing the code performs a
division by the zero total rate (with a single compressed state `gamma` is the
unchanged Python int 0 and `1.0 / gamma` raises `ZeroDivisionError`).  In the
exact-arithmetic embedding division is guarded: dividing by a zero total rate
yields the absent value, so a `gillespie_draw` run that reaches it produces no
draw.  Randomness is a given input: `u` is the standard-exponential draw
(`np.random.exponential(scale)` is `scale * u`) and `q` the uniform draw of
`sample_discrete`. -/

/-- `simple_propensity` (lines 580-591): `rateconstants[i] = self.K[i][x]`. -/
def simple_propensity (K : ℕ → ℕ → ℚ) (m : ℕ) (x : ℕ) : List ℚ :=
  (List.range m).map (fun i => K i x)

/-- The `gamma` accumulation of `gillespie_draw` (lines 642-645):
`gamma = 0`, then `for i in range(len(rateconstants)): if x != i: gamma +=
rateconstants[i]`. -/
def gammaOf (rateconstants : List ℚ) (x : ℕ) : ℚ :=
  (List.range rateconstants.length).foldl
    (fun gamma i => if x ≠ i then gamma + rateconstants.getD i 0 else gamma) 0

/-- Division guarded against a zero divisor: the absent value marks the
division by zero that Python either raises on (int `0`) or has no
exact-arithmetic counterpart for (float `0.0` giving `inf`/`nan`). -/
def safeDiv (a b : ℚ) : Option ℚ :=
  if b = 0 then none else some (a / b)

/-- The `sample_discrete` loop (lines 599-608): `i = 0; p_sum = 0.0;
for i in range(m): if x != i: p_sum += probs[i]; if p_sum >= q: break`,
returning the last loop index reached. -/
def sampleDiscreteLoop (probs : List ℚ) (x : ℕ) (q : ℚ) :
    List ℕ → ℚ → ℕ → ℕ
  | [], _, last => last
  | i :: rest, psum, _ =>
      let psum2 := if x ≠ i then psum + probs.getD i 0 else psum
      if q ≤ psum2 then i else sampleDiscreteLoop probs x q rest psum2 i

/-- `sample_discrete(self, probs, x)` with the uniform draw `q` given. -/
def sample_discrete (m : ℕ) (probs : List ℚ) (x : ℕ) (q : ℚ) : ℕ :=
  sampleDiscreteLoop probs x q (List.range m) 0 0

/-- `gillespie_draw(self, propensity_func, rateconstants, population, t, x)`
with the filled `rateconstants` and the two random draws given: compute
`gamma`, evaluate `time = (1.0 / gamma) * u`, then
`rxn_probs = rateconstants / gamma` and `rxn = sample_discrete(rxn_probs, x)`,
returning `(rxn, time)`.  The first division by a zero `gamma` aborts the
step (no absorbing-state guard exists in the source). -/
def gillespie_draw (m : ℕ) (rateconstants : List ℚ) (x : ℕ) (u q : ℚ) :
    Option (ℕ × ℚ) :=
  let gamma := gammaOf rateconstants x
  match safeDiv 1 gamma with
  | none => none
  | some invGamma =>
      let time := invGamma * u
      let rxn_probs := rateconstants.map (fun r => r / gamma)
      some (sample_discrete m rxn_probs x q, time)

/-- C8 evaluation at the failing input: for an absorbing current state
(`x = 0` with propensity column all zero, e.g. the column that
`simple_propensity` reads off a connection-free rate matrix), the total
off-diagonal rate `gamma` is 0, yet `gillespie_draw` does not freeze the
state: it unconditionally divides `1.0` by the zero total rate — the guarded
division has no value, so the step yields no draw (in Python, a
`ZeroDivisionError` when `gamma` is the unchanged int 0 of the one-state
case, and a float division by zero otherwise) — contradicting the claim that
the simulator neither raises an error nor divides by the zero total rate. -/
theorem gillespie_draw_zero_gamma_divides :
    simple_propensity (fun _ _ => 0) 2 0 = [0, 0] ∧
    gammaOf (simple_propensity (fun _ _ => 0) 2 0) 0 = 0 ∧
    safeDiv 1 (gammaOf (simple_propensity (fun _ _ => 0) 2 0) 0) = none ∧
    gillespie_draw 2 (simple_propensity (fun _ _ => 0) 2 0) 0 1 (1/2) = none := by
  have h0 : simple_propensity (fun _ _ => 0) 2 0 = [0, 0] := by decide
  have h1 : gammaOf (simple_propensity (fun _ _ => 0) 2 0) 0 = 0 := by
    rw [h0]
    norm_num [gammaOf, List.range_succ]
  have h2 : safeDiv 1 (gammaOf (simple_propensity (fun _ _ => 0) 2 0) 0) = none := by
    rw [h1]
    simp [safeDiv]
  refine ⟨h0, h1, h2, ?_⟩
  simp [gillespie_draw, h2]

end MEK
